import Mathlib

/-!
Verification of the D&D combat-mathematics core (`src/utils/dnd-combat-math.ts`).

The TypeScript source is shallowly embedded here:
* JavaScript numbers are modelled by exact rationals (`ℚ`) for probabilities and
  damage averages, integers (`ℤ`) for attack modifiers and armor classes, and
  naturals (`ℕ`) for counts; `Infinity` is modelled by `Option` with `none`.
* The one genuinely irrational quantity, `Math.sqrt(variance)`, is modelled by
  `Real.sqrt` (hence the analytic engine is `noncomputable`); every other
  definition is executable.
* `Math.random`-driven code (the Monte Carlo engine) is embedded as pure
  functions of the drawn roll stream and of the tallied attack-count array, so
  its deterministic logic (trial loop, retention, normalization, percentile
  scan) can be reasoned about exactly.
* Functions that `throw` are embedded with `Except String`.
-/

namespace DndCombat

/-! ## Damage parsing (`diceRegex`, `fixedRegex`, `isValidDamageInput`, `parseDamageInput`) -/

/-- Whitespace recognised by the regexes' `\s` and by `trim`.  (JavaScript's
`\s` also matches rarer Unicode whitespace; none of it occurs in the claims.) -/
def isWs (c : Char) : Bool :=
  c = ' ' || c = '\t' || c = '\n' || c = '\r'

/-- Drop leading whitespace, as the `\s*` pieces of the regexes do. -/
def skipWs (s : List Char) : List Char :=
  s.dropWhile isWs

/-- JavaScript `String.prototype.trim`. -/
def trimWs (s : List Char) : List Char :=
  ((s.dropWhile isWs).reverse.dropWhile isWs).reverse

/-- Numeric value of a digit run, as `parseInt` computes it on a `\d+` capture. -/
def digitsToNat (ds : List Char) : ℕ :=
  ds.foldl (fun acc c => 10 * acc + (c.toNat - 48)) 0

/-- Read a maximal nonempty digit run (a `\d+` group); `none` if no digit leads. -/
def readDigits (s : List Char) : Option (ℕ × List Char) :=
  let ds := s.takeWhile fun c => c.isDigit
  if ds.isEmpty then none
  else some (digitsToNat ds, s.dropWhile fun c => c.isDigit)

/-- `fixedRegex = /^\s*(\d+)\s*$/`: whole-string match returning the captured
integer. -/
def fixedMatch (s : List Char) : Option ℕ :=
  match readDigits (skipWs s) with
  | none => none
  | some (n, s2) => if skipWs s2 = [] then some n else none

/-- `diceRegex = /^\s*(\d+)\s*[dD]\s*(\d+)\s*(?:([+-])\s*(\d+))?\s*$/`:
whole-string match returning (number of dice, sides, signed modifier), the
modifier defaulting to `0` when the optional group is absent, exactly as
`parseDamageInput` combines captures 3 and 4. -/
def diceMatch (s : List Char) : Option (ℕ × ℕ × ℤ) :=
  match readDigits (skipWs s) with
  | none => none
  | some (n, s2) =>
    match skipWs s2 with
    | [] => none
    | c :: s4 =>
      if c = 'd' ∨ c = 'D' then
        match readDigits (skipWs s4) with
        | none => none
        | some (m, s5) =>
          match skipWs s5 with
          | [] => some (n, m, 0)
          | c2 :: s7 =>
            if c2 = '+' ∨ c2 = '-' then
              match readDigits (skipWs s7) with
              | none => none
              | some (k, s8) =>
                if skipWs s8 = [] then
                  some (n, m, if c2 = '-' then -(k : ℤ) else (k : ℤ))
                else none
            else none
      else none

/-- The `DamageResult` interface.  Optional interface fields are `Option`s. -/
structure DamageResult where
  numDice : Option ℕ
  diceSides : Option ℕ
  modifier : Option ℤ
  fixedDamage : Option ℕ
  average : ℚ
  min : ℚ
  max : ℚ
  criticalAverage : Option ℚ
  criticalMin : Option ℚ
  criticalMax : Option ℚ
  deriving DecidableEq

/-- `isValidDamageInput`: the cleaned string matches the dice grammar or the
fixed-integer grammar. -/
def isValidDamageInput (s : String) : Bool :=
  (diceMatch (trimWs s.data)).isSome || (fixedMatch (trimWs s.data)).isSome

/-- The hardcoded fallback record `parseDamageInput` returns when neither
grammar matches. -/
def fallbackDamage : DamageResult :=
  { numDice := none, diceSides := none, modifier := none, fixedDamage := some 1
    average := 1, min := 1, max := 1
    criticalAverage := some 2, criticalMin := some 2, criticalMax := some 2 }

/-- `parseDamageInput`: fixed grammar first, then dice grammar, then the
best-effort fallback.  Total: it never throws and never returns null. -/
def parseDamageInput (s : String) : DamageResult :=
  let cleaned := trimWs s.data
  match fixedMatch cleaned with
  | some d =>
    { numDice := none, diceSides := none, modifier := none, fixedDamage := some d
      average := (d : ℚ), min := (d : ℚ), max := (d : ℚ)
      criticalAverage := some ((d : ℚ) * 2), criticalMin := some ((d : ℚ) * 2)
      criticalMax := some ((d : ℚ) * 2) }
  | none =>
    match diceMatch cleaned with
    | some (n, m, k) =>
      { numDice := some n, diceSides := some m, modifier := some k
        fixedDamage := none
        average := (n : ℚ) * ((m : ℚ) + 1) / 2 + (k : ℚ)
        min := max 0 ((n : ℚ) + (k : ℚ))
        max := max 0 ((n : ℚ) * (m : ℚ) + (k : ℚ))
        criticalAverage := some (max 0 ((n : ℚ) * 2 * ((m : ℚ) + 1) / 2 + (k : ℚ)))
        criticalMin := some (max 0 ((n : ℚ) * 2 + (k : ℚ)))
        criticalMax := some (max 0 ((n : ℚ) * 2 * (m : ℚ) + (k : ℚ))) }
    | none => fallbackDamage

/-! ## Hit probability (`d20HitProb`) -/

/-- `d20HitProb`: clamp `(21 + attackModifier - armorClass) / 20` into `[0, 1]`,
then into `[1/20, 19/20]` when natural-roll rules are enforced. -/
def d20HitProb (attackModifier armorClass : ℤ) (enforceNatRules : Bool) : ℚ :=
  let raw : ℚ := (21 + (attackModifier : ℚ) - (armorClass : ℚ)) / 20
  let p := max 0 (min 1 raw)
  if enforceNatRules then max (1 / 20) (min (19 / 20) p) else p

/-! ## Binomial coefficient (`comb`, `gcd`) and negative-binomial PMF -/

/-- The source's `gcd` helper: Euclid's algorithm on absolute values, with
`a || 1` turning a zero result into `1`. -/
def gcdJS (a b : ℤ) : ℤ :=
  let g : ℤ := (Int.gcd a b : ℤ)
  if g = 0 then 1 else g

/-- The multiplicative loop of `comb` after `j` iterations: running numerator
and denominator, each iteration multiplying in `(n - (k - i))` and `i` and then
dividing both by their gcd. -/
def combGo (n : ℤ) (k : ℕ) : ℕ → ℤ × ℤ
  | 0 => (1, 1)
  | j + 1 =>
    let nd := combGo n k j
    let num := nd.1 * (n - ((k : ℤ) - ((j : ℤ) + 1)))
    let den := nd.2 * ((j : ℤ) + 1)
    let g := gcdJS num den
    (num / g, den / g)

/-- `comb`: numerically stable binomial coefficient.  The source's `k < 0`
guard is vacuous for the `ℕ` arguments all call sites pass. -/
def comb (n k : ℕ) : ℚ :=
  if k > n then 0
  else
    let k2 := Nat.min k (n - k)
    let nd := combGo (n : ℤ) k2 k2
    (nd.1 : ℚ) / (nd.2 : ℚ)

/-- `negBinomPMF n r p`: probability that the `r`-th success occurs on trial
`n`.  All call sites pass `r ≥ 1` and enumerate `n ≥ r`, where the `ℕ`
subtractions agree with the source's number arithmetic. -/
def negBinomPMF (n r : ℕ) (p : ℚ) : ℚ :=
  if n < r then 0
  else comb (n - 1) (r - 1) * p ^ r * (1 - p) ^ (n - r)

/-! ## Analytic engine (`timeToKillDistribution`) -/

/-- A PMF point: `{ attacks, prob }`. -/
structure TTKPoint where
  attacks : ℕ
  prob : ℚ
  deriving DecidableEq

/-- The `StatisticalResults` shape returned by the analytic engine.  `Infinity`
is `none`; `stdev` is a real since it is a square root.  The
`normalApprox` field (a presentation-only normal-curve sample) is outside every
claim and omitted. -/
structure StatisticalResults where
  hitProbability : ℚ
  hitsNeeded : Option ℚ
  pmf : List TTKPoint
  mean : Option ℚ
  variance : Option ℚ
  stdev : Option ℝ
  roundsDistribution : List ℚ

/-- The PMF enumeration loop: `while (tail > 1e-6 && n - hitsNeeded < 1000)`.
`fuel` equals `1000 - (n - hitsNeeded)`, so `fuel > 0` is exactly the second
conjunct of the loop condition. -/
def pmfLoop (r : ℕ) (p : ℚ) : ℕ → ℚ → ℕ → List TTKPoint
  | _, _, 0 => []
  | n, tail, fuel + 1 =>
    if 1 / 1000000 < tail then
      let prob := negBinomPMF n r p
      ⟨n, prob⟩ :: pmfLoop r p (n + 1) (tail - prob) fuel
    else []

/-- `timeToKillDistribution`: the closed-form negative-binomial engine.  Throws
(`Except.error`) on non-positive damage or health; returns the explicitly
infinite record when the hit probability is exactly `0`. -/
noncomputable def timeToKillDistribution (attackModifier armorClass : ℤ)
    (damage health : ℚ) (useCriticalMechanics : Bool) :
    Except String StatisticalResults :=
  if damage ≤ 0 then .error "damage must be > 0"
  else if health ≤ 0 then .error "health must be > 0"
  else
    let hitProbability := d20HitProb attackModifier armorClass useCriticalMechanics
    if hitProbability = 0 then
      .ok { hitProbability := hitProbability, hitsNeeded := none, pmf := []
            mean := none, variance := none, stdev := none
            roundsDistribution := [] }
    else
      let hitsNeeded : ℕ := ⌈health / damage⌉.toNat
      let pmf := pmfLoop hitsNeeded hitProbability hitsNeeded 1 1000
      let mean : ℚ := (hitsNeeded : ℚ) / hitProbability
      let variance : ℚ :=
        (hitsNeeded : ℚ) * (1 - hitProbability) / (hitProbability * hitProbability)
      .ok { hitProbability := hitProbability, hitsNeeded := some (hitsNeeded : ℚ)
            pmf := pmf, mean := some mean, variance := some variance
            stdev := some (Real.sqrt (variance : ℚ))
            roundsDistribution := pmf.map fun pt => pt.prob * 100 }

/-! ## Monte Carlo engine (`timeToKillWithCriticals`), deterministic parts

Randomness is injected: a trial consumes a stream `rolls : ℕ → ℕ × (ℕ → ℕ)`
giving, for each attack index, the d20 roll and the stream of damage-die
results `rollDie` would have produced for that attack. -/

/-- `rollDamage`: fixed damage (doubled on a critical), or the sum of the
(possibly doubled) dice plus the modifier; `1` as a last-resort fallback.  The
JavaScript truthiness test `damage.numDice && damage.diceSides` is false for
`undefined` and for `0`. -/
def rollDamage (damage : DamageResult) (isCritical : Bool) (dice : ℕ → ℕ) : ℤ :=
  match damage.fixedDamage with
  | some f => if isCritical then (f : ℤ) * 2 else (f : ℤ)
  | none =>
    match damage.numDice, damage.diceSides with
    | some nd, some s =>
      if nd ≠ 0 ∧ s ≠ 0 then
        let diceToRoll := if isCritical then nd * 2 else nd
        (((List.range diceToRoll).map fun i => (dice i : ℤ)).sum
          + (damage.modifier.getD 0))
      else 1
    | _, _ => 1

/-- One simulated trial's loop: `while (remainingHealth > 0 && attacks <
maxAttacks)`.  State is (remaining health, attacks so far); `fuel` equals
`maxAttacks - attacks`, so `fuel > 0` is exactly `attacks < maxAttacks`.
Returns the final (remaining health, attack count). -/
def trialLoop (attackModifier armorClass : ℤ) (damage : DamageResult)
    (useCrit : Bool) (rolls : ℕ → ℕ × (ℕ → ℕ)) : ℚ → ℕ → ℕ → ℚ × ℕ
  | hp, attacks, 0 => (hp, attacks)
  | hp, attacks, fuel + 1 =>
    if 0 < hp then
      let d20 := (rolls attacks).1
      let hits :=
        if useCrit then
          if d20 = 1 then false
          else if d20 = 20 then true
          else armorClass ≤ (d20 : ℤ) + attackModifier
        else armorClass ≤ (d20 : ℤ) + attackModifier
      let isCritical := useCrit && d20 = 20
      let hp2 :=
        if hits then hp - ((rollDamage damage isCritical (rolls attacks).2 : ℤ) : ℚ)
        else hp
      trialLoop attackModifier armorClass damage useCrit rolls hp2 (attacks + 1) fuel
    else (hp, attacks)

/-- One full trial: start at full health with `attacks = 0` and the 200-attack
cap. -/
def runTrial (attackModifier armorClass : ℤ) (damage : DamageResult)
    (health : ℚ) (useCrit : Bool) (rolls : ℕ → ℕ × (ℕ → ℕ)) : ℚ × ℕ :=
  trialLoop attackModifier armorClass damage useCrit rolls health 0 200

/-- The tally condition after a trial: `if (attacks < maxAttacks)
attackCounts[attacks]++`.  A trial is retained in the empirical distribution
iff this holds. -/
def trialRetained (attackModifier armorClass : ℤ) (damage : DamageResult)
    (health : ℚ) (useCrit : Bool) (rolls : ℕ → ℕ × (ℕ → ℕ)) : Bool :=
  (runTrial attackModifier armorClass damage health useCrit rolls).2 < 200

/-- The retained trial count: `for (i = 1..maxAttacks) if (attackCounts[i] > 0)
totalCount += attackCounts[i]`. -/
def totalCount (counts : ℕ → ℕ) : ℕ :=
  ((List.range' 1 200).map fun i => if 0 < counts i then counts i else 0).sum

/-- One entry of the empirical PMF, produced for attack count `i` exactly when
its tally is positive, with probability `attackCounts[i] / totalCount`. -/
def pmfEntry (counts : ℕ → ℕ) (i : ℕ) : Option TTKPoint :=
  if 0 < counts i then
    some ⟨i, (counts i : ℚ) / (totalCount counts : ℚ)⟩
  else none

/-- The empirical PMF built from the tally array, scanning attack counts `1`
through `maxAttacks` in ascending order. -/
def countsToPmf (counts : ℕ → ℕ) : List TTKPoint :=
  (List.range' 1 200).filterMap (pmfEntry counts)

/-- State of the median/percentile scan: the running cumulative probability and
the five markers, each initialised to `1`. -/
structure PercState where
  cumulativeProb : ℚ
  median : ℕ
  p25 : ℕ
  p75 : ℕ
  p90 : ℕ
  p95 : ℕ
  deriving DecidableEq

/-- One iteration of the percentile loop: add the point's probability to the
cumulative mass, then update each marker that still equals `1` and whose
threshold the cumulative mass has reached. -/
def percStep (st : PercState) (pt : TTKPoint) : PercState :=
  let c := st.cumulativeProb + pt.prob
  { cumulativeProb := c
    median := if st.median = 1 ∧ 1 / 2 ≤ c then pt.attacks else st.median
    p25 := if st.p25 = 1 ∧ 1 / 4 ≤ c then pt.attacks else st.p25
    p75 := if st.p75 = 1 ∧ 3 / 4 ≤ c then pt.attacks else st.p75
    p90 := if st.p90 = 1 ∧ 9 / 10 ≤ c then pt.attacks else st.p90
    p95 := if st.p95 = 1 ∧ 19 / 20 ≤ c then pt.attacks else st.p95 }

/-- The percentile loop over the PMF. -/
def percGo (st : PercState) : List TTKPoint → PercState
  | [] => st
  | pt :: rest => percGo (percStep st pt) rest

/-- Median and percentile markers of a PMF, as the source computes them. -/
def percentiles (pmf : List TTKPoint) : PercState :=
  percGo ⟨0, 1, 1, 1, 1, 1⟩ pmf

/-- The scan of a single marker with threshold `t`, state (cumulative mass,
marker); each `percentiles` field is an instance of this. -/
def markerGo (t : ℚ) : ℚ → ℕ → List TTKPoint → ℕ
  | _, m, [] => m
  | c, m, pt :: rest =>
    let c2 := c + pt.prob
    markerGo t c2 (if m = 1 ∧ t ≤ c2 then pt.attacks else m) rest

/-- A single marker computed from the initial state. -/
def marker (t : ℚ) (pmf : List TTKPoint) : ℕ :=
  markerGo t 0 1 pmf

/-- Modelled from the spec: the first attack count, in ascending order, at
which the cumulative PMF mass reaches or exceeds the threshold; `1` when the
threshold is never reached.  Used to compare the code's markers with the
spec's description. -/
def firstCrossAux (t : ℚ) : ℚ → List TTKPoint → ℕ
  | _, [] => 1
  | c, pt :: rest =>
    if t ≤ c + pt.prob then pt.attacks else firstCrossAux t (c + pt.prob) rest

/-- Modelled from the spec: first-crossing marker for threshold `t`. -/
def firstCrossingMarker (t : ℚ) (pmf : List TTKPoint) : ℕ :=
  firstCrossAux t 0 pmf

/-- The amended marker description: the first-crossing attack count, except
that a crossing at a leading entry with attack count `1` is indistinguishable
from the unset sentinel and is overwritten by the next entry's attack count
when one exists. -/
def markerAmended (t : ℚ) : List TTKPoint → ℕ
  | p :: q :: rest =>
    if p.attacks = 1 ∧ t ≤ p.prob then q.attacks
    else firstCrossingMarker t (p :: q :: rest)
  | l => firstCrossingMarker t l

/-- A concrete roll stream: the d20 misses (rolls 2 against a high armor
class) on the first 199 attacks and rolls a natural 20 on the 200th; every
damage die comes up 1. -/
def lateKillRolls : ℕ → ℕ × (ℕ → ℕ) :=
  fun k => (if k = 199 then 20 else 2, fun _ => 1)

/-! ## Theorems -/

/-- A successful dice-grammar match leaves a `d`/`D` where the fixed grammar
demands the end of the string, so the two grammars are mutually exclusive and
`parseDamageInput`'s fixed branch cannot fire on a dice expression. -/
theorem diceMatch_imp_fixedMatch_none (l : List Char) (x : ℕ × ℕ × ℤ)
    (h : diceMatch l = some x) : fixedMatch l = none := by
  cases hrd : readDigits (skipWs l) with
  | none => simp [diceMatch, hrd] at h
  | some pr =>
    obtain ⟨n, s2⟩ := pr
    cases hsw : skipWs s2 with
    | nil => simp [diceMatch, hrd, hsw] at h
    | cons c s4 => simp [fixedMatch, hrd, hsw]

/-- C2: without natural-roll rules the hit probability is exactly
`clamp((21 + attackModifier - armorClass) / 20, 0, 1)` and lies in `[0, 1]`;
with them it is that value further clamped into `[1/20, 19/20]`, so it lies in
`[0.05, 0.95]`. -/
theorem d20HitProb_clamp_bounds (am ac : ℤ) :
    d20HitProb am ac false = max 0 (min 1 ((21 + (am : ℚ) - (ac : ℚ)) / 20)) ∧
    0 ≤ d20HitProb am ac false ∧ d20HitProb am ac false ≤ 1 ∧
    d20HitProb am ac true
      = max (1 / 20) (min (19 / 20) (max 0 (min 1 ((21 + (am : ℚ) - (ac : ℚ)) / 20)))) ∧
    1 / 20 ≤ d20HitProb am ac true ∧ d20HitProb am ac true ≤ 19 / 20 := by
  refine ⟨rfl, le_max_left _ _, ?_, rfl, le_max_left _ _, ?_⟩
  · exact max_le (by norm_num) (min_le_left _ _)
  · exact max_le (by norm_num) (min_le_left _ _)

/-- C7 counterexample: parsing `"1d8+3"` yields `criticalAverage = 12`, not
the `12.5` the claim states (the code doubles only the dice: `2d8+3` averages
`12`). -/
theorem parse_1d8p3_criticalAverage_twelve :
    (parseDamageInput "1d8+3").criticalAverage = some 12 ∧ (12 : ℚ) ≠ 25 / 2 := by
  have hd : diceMatch (trimWs "1d8+3".data) = some (1, 8, 3) := by decide
  have hf : fixedMatch (trimWs "1d8+3".data) = none := by decide
  constructor
  · simp only [parseDamageInput, hd, hf]
    norm_num
  · norm_num

/-- C7 amended: parsing `"1d8+3"` yields numDice 1, diceSides 8, modifier 3,
average 7.5, min 4, max 11, criticalMin 5, criticalMax 19, and
criticalAverage 12. -/
theorem parse_1d8p3_fields :
    parseDamageInput "1d8+3" =
      { numDice := some 1, diceSides := some 8, modifier := some 3
        fixedDamage := none, average := 15 / 2, min := 4, max := 11
        criticalAverage := some 12, criticalMin := some 5
        criticalMax := some 19 } := by
  have hd : diceMatch (trimWs "1d8+3".data) = some (1, 8, 3) := by decide
  have hf : fixedMatch (trimWs "1d8+3".data) = none := by decide
  simp only [parseDamageInput, hd, hf]
  norm_num

/-- C8: every string matching the dice grammar with captures `N`, `M`, signed
`K` parses to average `N*(M+1)/2 + K`, min `N*1 + K` clamped to `0`, and max
`N*M + K` clamped to `0`. -/
theorem dice_parse_closed_form (s : String) (n m : ℕ) (k : ℤ)
    (h : diceMatch (trimWs s.data) = some (n, m, k)) :
    (parseDamageInput s).average = (n : ℚ) * ((m : ℚ) + 1) / 2 + (k : ℚ) ∧
    (parseDamageInput s).min = max 0 ((n : ℚ) * 1 + (k : ℚ)) ∧
    (parseDamageInput s).max = max 0 ((n : ℚ) * (m : ℚ) + (k : ℚ)) := by
  have hf := diceMatch_imp_fixedMatch_none _ _ h
  simp only [parseDamageInput, hf, h]
  norm_num

/-- C8 witness: the dice string `"2d6+1"` at captures (2, 6, +1). -/
theorem dice_parse_closed_form_witness :
    diceMatch (trimWs "2d6+1".data) = some (2, 6, 1) ∧
    ((parseDamageInput "2d6+1").average = (2 : ℚ) * ((6 : ℚ) + 1) / 2 + (1 : ℚ) ∧
      (parseDamageInput "2d6+1").min = max 0 ((2 : ℚ) * 1 + (1 : ℚ)) ∧
      (parseDamageInput "2d6+1").max = max 0 ((2 : ℚ) * (6 : ℚ) + (1 : ℚ))) :=
  ⟨by decide, dice_parse_closed_form "2d6+1" 2 6 1 (by decide)⟩

/-- C10: any string rejected by `isValidDamageInput` still parses, without
error or null, to the best-effort fallback record with fixed damage 1 and
doubled critical values; only `isValidDamageInput` reveals invalidity. -/
theorem invalid_parse_fallback (s : String) (h : isValidDamageInput s = false) :
    parseDamageInput s =
      { numDice := none, diceSides := none, modifier := none, fixedDamage := some 1
        average := 1, min := 1, max := 1
        criticalAverage := some 2, criticalMin := some 2, criticalMax := some 2 } := by
  cases hd : diceMatch (trimWs s.data) with
  | some v => simp [isValidDamageInput, hd] at h
  | none =>
    cases hf : fixedMatch (trimWs s.data) with
    | some v => simp [isValidDamageInput, hd, hf] at h
    | none => simp [parseDamageInput, hd, hf, fallbackDamage]

/-- C10 witness: the invalid string `"abc"`. -/
theorem invalid_parse_fallback_witness :
    isValidDamageInput "abc" = false ∧
    parseDamageInput "abc" =
      { numDice := none, diceSides := none, modifier := none, fixedDamage := some 1
        average := 1, min := 1, max := 1
        criticalAverage := some 2, criticalMin := some 2, criticalMax := some 2 } :=
  ⟨by decide, invalid_parse_fallback "abc" (by decide)⟩


theorem gcdJS_pos (a b : ℤ) : 0 < gcdJS a b := by
  by_cases h : (Int.gcd a b : ℤ) = 0
  · simp [gcdJS, h]
  · simp only [gcdJS, if_neg h]
    have h2 : (0 : ℤ) ≤ (Int.gcd a b : ℤ) := Int.natCast_nonneg _
    omega

theorem gcdJS_dvd_left (a b : ℤ) : gcdJS a b ∣ a := by
  by_cases h : (Int.gcd a b : ℤ) = 0
  · simp only [gcdJS, h, if_pos]
    exact one_dvd _
  · simp only [gcdJS, if_neg h]
    exact Int.gcd_dvd_left

theorem gcdJS_dvd_right (a b : ℤ) : gcdJS a b ∣ b := by
  by_cases h : (Int.gcd a b : ℤ) = 0
  · simp only [gcdJS, h, if_pos]
    exact one_dvd _
  · simp only [gcdJS, if_neg h]
    exact Int.gcd_dvd_right

theorem combGo_spec (n k : ℕ) (hk : k ≤ n) :
    ∀ j, j ≤ k → 0 < (combGo (n : ℤ) k j).2 ∧
      ((combGo (n : ℤ) k j).1 : ℚ) / ((combGo (n : ℤ) k j).2 : ℚ)
        = (Nat.choose (n - k + j) j : ℚ) := by
  intro j
  induction j with
  | zero => intro _; simp [combGo]
  | succ j ih =>
    intro hj
    obtain ⟨hden, hval⟩ := ih (Nat.le_of_succ_le hj)
    set N := n - k with hN
    set num := (combGo (n : ℤ) k j).1 with hnum
    set den := (combGo (n : ℤ) k j).2 with hden2
    have hfac : (n : ℤ) - ((k : ℤ) - ((j : ℤ) + 1)) = ((N + j + 1 : ℕ) : ℤ) := by
      omega
    set A := num * ((n : ℤ) - ((k : ℤ) - ((j : ℤ) + 1))) with hA
    set B := den * ((j : ℤ) + 1) with hB
    set g := gcdJS A B with hg
    have hstep : combGo (n : ℤ) k (j + 1) = (A / g, B / g) := rfl
    have hgpos : 0 < g := gcdJS_pos A B
    have hgA : g ∣ A := gcdJS_dvd_left A B
    have hgB : g ∣ B := gcdJS_dvd_right A B
    have hBpos : 0 < B := by positivity
    have hBdiv : 0 < B / g := by
      rcases hgB with ⟨c, hc⟩
      have hc2 : B / g = c := by rw [hc]; exact Int.mul_ediv_cancel_left c (by omega)
      rw [hc2]
      nlinarith [hc]
    refine ⟨by rw [hstep]; exact hBdiv, ?_⟩
    rw [hstep]
    simp only
    have hgq : (g : ℚ) ≠ 0 := Int.cast_ne_zero.mpr (by omega)
    have e1 : (A : ℚ) = (g : ℚ) * ((A / g : ℤ) : ℚ) := by
      exact_mod_cast (Int.mul_ediv_cancel' hgA).symm
    have e2 : (B : ℚ) = (g : ℚ) * ((B / g : ℤ) : ℚ) := by
      exact_mod_cast (Int.mul_ediv_cancel' hgB).symm
    have hAg : (((A / g : ℤ)) : ℚ) / (((B / g : ℤ)) : ℚ) = (A : ℚ) / (B : ℚ) := by
      rw [e1, e2, mul_div_mul_left _ _ hgq]
    rw [hAg]
    have hAint : A = num * ((N + j + 1 : ℕ) : ℤ) := by rw [hA, hfac]
    have hAq : (A : ℚ) = (num : ℚ) * ((N + j + 1 : ℕ) : ℚ) := by
      rw [hAint]; push_cast; ring
    have hBq : (B : ℚ) = (den : ℚ) * ((j : ℚ) + 1) := by rw [hB]; push_cast; ring
    have hden0 : (den : ℚ) ≠ 0 := Int.cast_ne_zero.mpr (by omega)
    have hv : (num : ℚ) = (Nat.choose (N + j) j : ℚ) * (den : ℚ) := by
      rw [div_eq_iff hden0] at hval
      exact hval
    have hchoose2 : (N + j + 1) * Nat.choose (N + j) j
        = Nat.choose (N + j + 1) (j + 1) * (j + 1) := by
      simpa [Nat.succ_eq_add_one] using Nat.succ_mul_choose_eq (N + j) j
    have hcq : ((N : ℚ) + (j : ℚ) + 1) * (Nat.choose (N + j) j : ℚ)
        = (Nat.choose (N + j + 1) (j + 1) : ℚ) * ((j : ℚ) + 1) := by
      exact_mod_cast hchoose2
    have hidx : N + (j + 1) = N + j + 1 := by omega
    rw [hidx, hAq, hBq, hv]
    have hne : (den : ℚ) * ((j : ℚ) + 1) ≠ 0 := by positivity
    rw [div_eq_iff hne]
    push_cast
    linear_combination (den : ℚ) * hcq

theorem comb_eq_choose (n k : ℕ) : comb n k = (Nat.choose n k : ℚ) := by
  by_cases h : n < k
  · simp [comb, h, Nat.choose_eq_zero_of_lt h]
  · push_neg at h
    have hk2 : min k (n - k) ≤ n := le_trans (min_le_left _ _) h
    obtain ⟨hpos, hval⟩ := combGo_spec n (min k (n - k)) hk2 (min k (n - k)) le_rfl
    unfold comb
    rw [if_neg (not_lt.mpr h)]
    show ((combGo (n : ℤ) (min k (n - k)) (min k (n - k))).1 : ℚ)
        / ((combGo (n : ℤ) (min k (n - k)) (min k (n - k))).2 : ℚ) = _
    rw [hval, Nat.sub_add_cancel hk2]
    rcases le_total k (n - k) with hle | hle
    · rw [min_eq_left hle]
    · rw [min_eq_right hle, Nat.choose_symm h]


theorem d20HitProb_true_pos (am ac : ℤ) : 0 < d20HitProb am ac true := by
  have h : (0 : ℚ) < 1 / 20 := by norm_num
  exact lt_of_lt_of_le h (le_max_left _ _)

theorem pmfLoop_mem (r : ℕ) (p : ℚ) :
    ∀ fuel n tail pt, pt ∈ pmfLoop r p n tail fuel →
      n ≤ pt.attacks ∧ pt.prob = negBinomPMF pt.attacks r p := by
  intro fuel
  induction fuel with
  | zero => intro n tail pt h; simp [pmfLoop] at h
  | succ f ih =>
    intro n tail pt h
    simp only [pmfLoop] at h
    by_cases hc : (1 / 1000000 : ℚ) < tail
    · rw [if_pos hc] at h
      rcases List.mem_cons.mp h with h1 | h2
      · rw [h1]
        exact ⟨le_refl n, rfl⟩
      · have h3 := ih (n + 1) (tail - negBinomPMF n r p) pt h2
        exact ⟨le_trans (Nat.le_succ n) h3.1, h3.2⟩
    · rw [if_neg hc] at h
      simp at h

/-- C9: when the hit probability is exactly zero (possible only with critical
rules disabled) the analytic engine does not error: it returns the infinite
record with an empty PMF. -/
theorem analytic_zero_prob (am ac : ℤ) (damage health : ℚ) (crit : Bool)
    (hd : 0 < damage) (hh : 0 < health) (hp : d20HitProb am ac crit = 0) :
    crit = false ∧
    timeToKillDistribution am ac damage health crit =
      Except.ok { hitProbability := 0, hitsNeeded := none, pmf := []
                  mean := none, variance := none, stdev := none
                  roundsDistribution := [] } := by
  constructor
  · cases crit with
    | false => rfl
    | true =>
      exfalso
      have h1 := d20HitProb_true_pos am ac
      rw [hp] at h1
      norm_num at h1
  · unfold timeToKillDistribution
    rw [if_neg (not_le.mpr hd), if_neg (not_le.mpr hh)]
    simp only [hp, if_pos]

/-- C1: for positive damage, health and hit probability the analytic engine
returns hitsNeeded = ceil(health/damage), a PMF whose every point `n ≥
hitsNeeded` carries the negative-binomial probability `C(n-1, hitsNeeded-1) *
p^hitsNeeded * (1-p)^(n-hitsNeeded)`, mean `hitsNeeded/p`, and variance
`hitsNeeded*(1-p)/p^2`. -/
theorem analytic_negative_binomial (am ac : ℤ) (damage health : ℚ) (crit : Bool)
    (hd : 0 < damage) (hh : 0 < health) (hp : 0 < d20HitProb am ac crit) :
    ∃ res, timeToKillDistribution am ac damage health crit = Except.ok res ∧
      1 ≤ ⌈health / damage⌉.toNat ∧
      res.hitsNeeded = some ((⌈health / damage⌉.toNat : ℚ)) ∧
      (∀ pt ∈ res.pmf,
        ⌈health / damage⌉.toNat ≤ pt.attacks ∧
        pt.prob = (Nat.choose (pt.attacks - 1) (⌈health / damage⌉.toNat - 1) : ℚ)
          * d20HitProb am ac crit ^ ⌈health / damage⌉.toNat
          * (1 - d20HitProb am ac crit) ^ (pt.attacks - ⌈health / damage⌉.toNat)) ∧
      res.mean = some ((⌈health / damage⌉.toNat : ℚ) / d20HitProb am ac crit) ∧
      res.variance = some ((⌈health / damage⌉.toNat : ℚ) * (1 - d20HitProb am ac crit)
        / d20HitProb am ac crit ^ 2) := by
  set p := d20HitProb am ac crit with hpdef
  set r : ℕ := ⌈health / damage⌉.toNat with hrdef
  have hp0 : p ≠ 0 := ne_of_gt hp
  have hr1 : 1 ≤ r := by
    have h2 : 0 < ⌈health / damage⌉ := Int.ceil_pos.mpr (div_pos hh hd)
    omega
  refine ⟨{ hitProbability := p, hitsNeeded := some (r : ℚ)
            pmf := pmfLoop r p r 1 1000
            mean := some ((r : ℚ) / p)
            variance := some ((r : ℚ) * (1 - p) / (p * p))
            stdev := some (Real.sqrt ((((r : ℚ) * (1 - p) / (p * p) : ℚ)) : ℝ))
            roundsDistribution := (pmfLoop r p r 1 1000).map fun pt => pt.prob * 100 },
    ?_, hr1, rfl, ?_, rfl, ?_⟩
  · unfold timeToKillDistribution
    rw [if_neg (not_le.mpr hd), if_neg (not_le.mpr hh)]
    simp only [← hpdef, ← hrdef, if_neg hp0]
  · intro pt hmem
    have h2 := pmfLoop_mem r p 1000 r 1 pt hmem
    refine ⟨h2.1, ?_⟩
    rw [h2.2]
    unfold negBinomPMF
    rw [if_neg (not_lt.mpr h2.1), comb_eq_choose]
  · show some ((r : ℚ) * (1 - p) / (p * p)) = some ((r : ℚ) * (1 - p) / p ^ 2)
    rw [pow_two]

/-- C1 witness: attackModifier 5, armorClass 15, damage 8, health 25, critical
rules on (hit probability 11/20, hitsNeeded 4). -/
theorem analytic_negative_binomial_witness :
    (0 : ℚ) < 8 ∧ (0 : ℚ) < 25 ∧ 0 < d20HitProb 5 15 true ∧
    (∃ res, timeToKillDistribution 5 15 8 25 true = Except.ok res ∧
      1 ≤ ⌈(25 : ℚ) / 8⌉.toNat ∧
      res.hitsNeeded = some ((⌈(25 : ℚ) / 8⌉.toNat : ℚ)) ∧
      (∀ pt ∈ res.pmf,
        ⌈(25 : ℚ) / 8⌉.toNat ≤ pt.attacks ∧
        pt.prob = (Nat.choose (pt.attacks - 1) (⌈(25 : ℚ) / 8⌉.toNat - 1) : ℚ)
          * d20HitProb 5 15 true ^ ⌈(25 : ℚ) / 8⌉.toNat
          * (1 - d20HitProb 5 15 true) ^ (pt.attacks - ⌈(25 : ℚ) / 8⌉.toNat)) ∧
      res.mean = some ((⌈(25 : ℚ) / 8⌉.toNat : ℚ) / d20HitProb 5 15 true) ∧
      res.variance = some ((⌈(25 : ℚ) / 8⌉.toNat : ℚ) * (1 - d20HitProb 5 15 true)
        / d20HitProb 5 15 true ^ 2)) := by
  have hp := d20HitProb_true_pos 5 15
  exact ⟨by norm_num, by norm_num, hp,
    analytic_negative_binomial 5 15 8 25 true (by norm_num) (by norm_num) hp⟩

/-- C9 witness: attackModifier 0, armorClass 30, criticals disabled, damage 1,
health 1; the raw hit chance is negative so the clamp yields exactly 0. -/
theorem analytic_zero_prob_witness :
    (0 : ℚ) < 1 ∧ d20HitProb 0 30 false = 0 ∧
    (false = false ∧
      timeToKillDistribution 0 30 1 1 false =
        Except.ok { hitProbability := 0, hitsNeeded := none, pmf := []
                    mean := none, variance := none, stdev := none
                    roundsDistribution := [] }) := by
  have hp : d20HitProb 0 30 false = 0 := by
    simp only [d20HitProb, if_neg]
    norm_num [max_def, min_def]
  exact ⟨by norm_num, hp, analytic_zero_prob 0 30 1 1 false (by norm_num) (by norm_num) hp⟩


theorem trialLoop_kill (am ac : ℤ) (dmg : DamageResult) (crit : Bool)
    (rolls : ℕ → ℕ × (ℕ → ℕ)) :
    ∀ fuel (hp : ℚ) (a : ℕ),
      (trialLoop am ac dmg crit rolls hp a fuel).2 < a + fuel →
      (trialLoop am ac dmg crit rolls hp a fuel).1 ≤ 0 := by
  intro fuel
  induction fuel with
  | zero => intro hp a h; simp [trialLoop] at h
  | succ f ih =>
    intro hp a h
    simp only [trialLoop] at h ⊢
    by_cases hhp : 0 < hp
    · rw [if_pos hhp] at h ⊢
      exact ih _ (a + 1) (by omega)
    · rw [if_neg hhp] at h ⊢
      exact le_of_not_lt hhp

/-- C3 amended: a trial is retained iff its final attack count is strictly
below the 200-attack cap, in which case the target was killed; a trial whose
200th attack kills the target is discarded along with trials that exceed the
cap without killing. -/
theorem trial_retained_iff (am ac : ℤ) (dmg : DamageResult) (health : ℚ)
    (crit : Bool) (rolls : ℕ → ℕ × (ℕ → ℕ)) :
    trialRetained am ac dmg health crit rolls = true ↔
      ((runTrial am ac dmg health crit rolls).1 ≤ 0 ∧
        (runTrial am ac dmg health crit rolls).2 < 200) := by
  unfold trialRetained
  constructor
  · intro h
    have h2 : (runTrial am ac dmg health crit rolls).2 < 200 := by
      simpa using h
    exact ⟨trialLoop_kill am ac dmg crit rolls 200 health 0 (by simpa using h2), h2⟩
  · intro h
    simpa using h.2

/-- C3 counterexample: with fixed damage 1, health 1, and a roll stream that
misses 199 times and rolls a natural 20 on the 200th attack, the trial kills
the target within the 200-attack cap (final health is below 0 at attack count
exactly 200) yet it is discarded, contradicting the claim that every trial
killing within the cap is retained. -/
theorem trial_killed_at_cap_discarded :
    (runTrial 0 30 fallbackDamage 1 true lateKillRolls).1 ≤ 0 ∧
    (runTrial 0 30 fallbackDamage 1 true lateKillRolls).2 = 200 ∧
    trialRetained 0 30 fallbackDamage 1 true lateKillRolls = false := by
  have aux : ∀ j k, k + j = 200 → k ≤ 199 →
      trialLoop 0 30 fallbackDamage true lateKillRolls 1 k j = (-1, 200) := by
    intro j
    induction j with
    | zero => intro k hk hk2; omega
    | succ f ih =>
      intro k hk hk2
      by_cases hlast : k = 199
      · subst hlast
        have hf : f = 0 := by omega
        subst hf
        simp only [trialLoop]
        rw [if_pos (by norm_num : (0 : ℚ) < 1)]
        norm_num [lateKillRolls, rollDamage, fallbackDamage, trialLoop]
      · simp only [trialLoop]
        rw [if_pos (by norm_num : (0 : ℚ) < 1)]
        norm_num [lateKillRolls, hlast]
        exact ih (k + 1) (by omega) (by omega)
  have h200 := aux 200 0 rfl (by omega)
  unfold runTrial trialRetained
  unfold runTrial
  rw [h200]
  norm_num


theorem pmfEntry_some (counts : ℕ → ℕ) (i : ℕ) (pt : TTKPoint)
    (h : pmfEntry counts i = some pt) :
    pt.attacks = i ∧ 0 < counts i ∧
      pt.prob = (counts i : ℚ) / (totalCount counts : ℚ) := by
  by_cases hc : 0 < counts i
  · rw [pmfEntry, if_pos hc] at h
    injection h with h2
    rw [← h2]
    exact ⟨rfl, hc, rfl⟩
  · rw [pmfEntry, if_neg hc] at h
    exact absurd h (by simp)

theorem countsToPmf_mem (counts : ℕ → ℕ) (pt : TTKPoint)
    (h : pt ∈ countsToPmf counts) :
    1 ≤ pt.attacks ∧ pt.attacks ≤ 200 ∧ 0 < counts pt.attacks ∧
      pt.prob = (counts pt.attacks : ℚ) / (totalCount counts : ℚ) := by
  rcases List.mem_filterMap.mp h with ⟨i, hi, hfi⟩
  obtain ⟨ha, hc, hp⟩ := pmfEntry_some counts i pt hfi
  rw [List.mem_range'_1] at hi
  rw [ha]
  exact ⟨hi.1, by omega, hc, hp⟩

theorem countsToPmf_pairwise (counts : ℕ → ℕ) :
    List.Pairwise (fun a b : TTKPoint => a.attacks < b.attacks)
      (countsToPmf counts) := by
  unfold countsToPmf
  rw [List.pairwise_filterMap]
  have hr := List.pairwise_lt_range' 1 200 1 (by norm_num)
  refine hr.imp ?_
  intro i j hij pt hpt pt2 hpt2
  rw [Option.mem_def] at hpt hpt2
  rw [(pmfEntry_some counts i pt hpt).1, (pmfEntry_some counts j pt2 hpt2).1]
  exact hij

theorem countsToPmf_prob_nonneg (counts : ℕ → ℕ) (pt : TTKPoint)
    (h : pt ∈ countsToPmf counts) : 0 ≤ pt.prob := by
  rw [(countsToPmf_mem counts pt h).2.2.2]
  positivity

theorem sum_probs_aux (counts : ℕ → ℕ) :
    ∀ l : List ℕ,
      ((l.filterMap (pmfEntry counts)).map TTKPoint.prob).sum
        = (l.map fun i => if 0 < counts i then (counts i : ℚ) else 0).sum
            / (totalCount counts : ℚ) := by
  intro l
  induction l with
  | nil => simp
  | cons i rest ih =>
    by_cases hc : 0 < counts i
    · simp only [List.filterMap_cons, pmfEntry, if_pos hc, List.map_cons,
        List.sum_cons, List.map, ih]
      rw [add_div]
    · simp only [List.filterMap_cons, pmfEntry, if_neg hc, List.map_cons,
        List.sum_cons, List.map, ih]
      rw [zero_add]

theorem totalCount_cast (counts : ℕ → ℕ) :
    ((totalCount counts : ℕ) : ℚ)
      = ((List.range' 1 200).map fun i =>
          if 0 < counts i then (counts i : ℚ) else 0).sum := by
  unfold totalCount
  rw [Nat.cast_list_sum, List.map_map]
  have hfg : (Nat.cast ∘ fun i => if 0 < counts i then counts i else 0)
      = fun i : ℕ => if 0 < counts i then ((counts i : ℕ) : ℚ) else 0 := by
    funext i
    by_cases hc : 0 < counts i <;> simp [Function.comp, hc]
  rw [hfg]

/-- C4: the empirical PMF divides each retained attack-count tally by the
retained trial count (not the nominal 100000), so the probabilities sum to
exactly 1 whenever at least one trial was retained. -/
theorem empirical_pmf_normalized (counts : ℕ → ℕ) (h : 0 < totalCount counts) :
    (∀ pt ∈ countsToPmf counts,
      pt.prob = (counts pt.attacks : ℚ) / (totalCount counts : ℚ)) ∧
    ((countsToPmf counts).map TTKPoint.prob).sum = 1 := by
  constructor
  · intro pt hpt
    exact (countsToPmf_mem counts pt hpt).2.2.2
  · unfold countsToPmf
    rw [sum_probs_aux, ← totalCount_cast]
    exact div_self (by positivity)

set_option maxRecDepth 4000 in
/-- C4 witness: a tally with a single retained trial at attack count 1. -/
theorem empirical_pmf_normalized_witness :
    0 < totalCount (fun i => if i = 1 then 1 else 0) ∧
    ((∀ pt ∈ countsToPmf (fun i => if i = 1 then 1 else 0),
        pt.prob = ((if pt.attacks = 1 then 1 else 0 : ℕ) : ℚ)
          / (totalCount (fun i => if i = 1 then 1 else 0) : ℚ)) ∧
      ((countsToPmf (fun i => if i = 1 then 1 else 0)).map TTKPoint.prob).sum = 1) :=
  ⟨by decide, empirical_pmf_normalized (fun i => if i = 1 then 1 else 0) (by decide)⟩


theorem percGo_median : ∀ (l : List TTKPoint) (st : PercState),
    (percGo st l).median = markerGo (1 / 2) st.cumulativeProb st.median l := by
  intro l
  induction l with
  | nil => intro st; rfl
  | cons pt rest ih => intro st; rw [percGo, markerGo, ih]; rfl

theorem percGo_p25 : ∀ (l : List TTKPoint) (st : PercState),
    (percGo st l).p25 = markerGo (1 / 4) st.cumulativeProb st.p25 l := by
  intro l
  induction l with
  | nil => intro st; rfl
  | cons pt rest ih => intro st; rw [percGo, markerGo, ih]; rfl

theorem percGo_p75 : ∀ (l : List TTKPoint) (st : PercState),
    (percGo st l).p75 = markerGo (3 / 4) st.cumulativeProb st.p75 l := by
  intro l
  induction l with
  | nil => intro st; rfl
  | cons pt rest ih => intro st; rw [percGo, markerGo, ih]; rfl

theorem percGo_p90 : ∀ (l : List TTKPoint) (st : PercState),
    (percGo st l).p90 = markerGo (9 / 10) st.cumulativeProb st.p90 l := by
  intro l
  induction l with
  | nil => intro st; rfl
  | cons pt rest ih => intro st; rw [percGo, markerGo, ih]; rfl

theorem percGo_p95 : ∀ (l : List TTKPoint) (st : PercState),
    (percGo st l).p95 = markerGo (19 / 20) st.cumulativeProb st.p95 l := by
  intro l
  induction l with
  | nil => intro st; rfl
  | cons pt rest ih => intro st; rw [percGo, markerGo, ih]; rfl

theorem markerGo_frozen : ∀ (l : List TTKPoint) (t c : ℚ) (m : ℕ),
    m ≠ 1 → markerGo t c m l = m := by
  intro l
  induction l with
  | nil => intro t c m _; rfl
  | cons pt rest ih =>
    intro t c m hm
    rw [markerGo]
    simp only [hm, false_and, if_neg, if_false]
    exact ih t (c + pt.prob) m hm

theorem markerGo_tail_ge_two : ∀ (l : List TTKPoint) (t c : ℚ),
    (∀ pt ∈ l, 2 ≤ pt.attacks) → markerGo t c 1 l = firstCrossAux t c l := by
  intro l
  induction l with
  | nil => intro t c _; rfl
  | cons pt rest ih =>
    intro t c h2
    rw [markerGo, firstCrossAux]
    by_cases hc : t ≤ c + pt.prob
    · rw [if_pos ⟨rfl, hc⟩, if_pos hc]
      exact markerGo_frozen rest t (c + pt.prob) pt.attacks
        (by have := h2 pt (List.mem_cons_self pt rest); omega)
    · rw [if_neg (by intro h; exact hc h.2), if_neg hc]
      exact ih t (c + pt.prob) fun q hq => h2 q (List.mem_cons_of_mem pt hq)


theorem markerAmended_singleton (t : ℚ) (p : TTKPoint) :
    markerAmended t [p] = firstCrossingMarker t [p] := rfl

theorem markerAmended_cons2 (t : ℚ) (p q : TTKPoint) (rest : List TTKPoint) :
    markerAmended t (p :: q :: rest)
      = if p.attacks = 1 ∧ t ≤ p.prob then q.attacks
        else firstCrossingMarker t (p :: q :: rest) := rfl

theorem marker_eq_markerAmended (t : ℚ) (pmf : List TTKPoint)
    (hpair : List.Pairwise (fun a b : TTKPoint => a.attacks < b.attacks) pmf)
    (hge : ∀ pt ∈ pmf, 1 ≤ pt.attacks)
    (hpr : ∀ pt ∈ pmf, 0 ≤ pt.prob) :
    marker t pmf = markerAmended t pmf := by
  match pmf with
  | [] => rfl
  | [p] =>
    rw [markerAmended_singleton, marker, markerGo, firstCrossingMarker, firstCrossAux]
    by_cases hc : t ≤ 0 + p.prob
    · rw [if_pos ⟨rfl, hc⟩, if_pos hc]
      rfl
    · rw [if_neg (by intro h; exact hc h.2), if_neg hc]
      rfl
  | p :: q :: rest =>
    have hq2 : ∀ pt ∈ q :: rest, 2 ≤ pt.attacks := by
      intro pt hpt
      have h1 := (List.pairwise_cons.mp hpair).1 pt hpt
      have h2 := hge p (List.mem_cons_self p (q :: rest))
      omega
    rw [marker, markerGo, markerAmended_cons2]
    by_cases hc : t ≤ 0 + p.prob
    · rw [if_pos ⟨rfl, hc⟩]
      by_cases h1 : p.attacks = 1
      · rw [h1, markerGo_tail_ge_two (q :: rest) t (0 + p.prob) hq2, firstCrossAux,
          if_pos (by
            have hqp := hpr q (List.mem_cons_of_mem p (List.mem_cons_self q rest))
            linarith)]
        rw [if_pos ⟨rfl, by linarith⟩]
      · rw [markerGo_frozen (q :: rest) t (0 + p.prob) p.attacks h1,
          if_neg (by intro h; exact h1 h.1)]
        conv_rhs => rw [firstCrossingMarker, firstCrossAux]
        rw [if_pos hc]
    · rw [if_neg (by intro h; exact hc h.2),
        markerGo_tail_ge_two (q :: rest) t (0 + p.prob) hq2,
        if_neg (by intro h; exact hc (by rw [zero_add]; exact h.2))]
      conv_rhs => rw [firstCrossingMarker, firstCrossAux]
      rw [if_neg hc]

theorem firstCrossAux_lower : ∀ (l : List TTKPoint) (t c : ℚ) (b : ℕ),
    l ≠ [] → t ≤ c + (l.map TTKPoint.prob).sum → (∀ pt ∈ l, b ≤ pt.attacks) →
    b ≤ firstCrossAux t c l := by
  intro l
  induction l with
  | nil => intro t c b hne _ _; exact absurd rfl hne
  | cons pt rest ih =>
    intro t c b _ hsum hb
    rw [List.map_cons, List.sum_cons] at hsum
    rw [firstCrossAux]
    by_cases hc : t ≤ c + pt.prob
    · rw [if_pos hc]
      exact hb pt (List.mem_cons_self pt rest)
    · rw [if_neg hc]
      have hrest : rest ≠ [] := by
        intro he
        rw [he] at hsum
        simp at hsum
        exact hc (by linarith)
      refine ih t (c + pt.prob) b hrest (by linarith) fun q hq =>
        hb q (List.mem_cons_of_mem pt hq)

theorem firstCrossAux_mono : ∀ (l : List TTKPoint) (t1 t2 c : ℚ),
    t1 ≤ t2 → t2 ≤ c + (l.map TTKPoint.prob).sum →
    List.Pairwise (fun a b : TTKPoint => a.attacks < b.attacks) l →
    firstCrossAux t1 c l ≤ firstCrossAux t2 c l := by
  intro l
  induction l with
  | nil => intro t1 t2 c _ _ _; exact le_refl 1
  | cons pt rest ih =>
    intro t1 t2 c h12 hsum hpair
    rw [List.map_cons, List.sum_cons] at hsum
    rw [firstCrossAux, firstCrossAux]
    by_cases h2 : t2 ≤ c + pt.prob
    · rw [if_pos h2, if_pos (le_trans h12 h2)]
    · rw [if_neg h2]
      by_cases h1 : t1 ≤ c + pt.prob
      · rw [if_pos h1]
        have hrest : rest ≠ [] := by
          intro he
          rw [he] at hsum
          simp at hsum
          exact h2 (by linarith)
        refine firstCrossAux_lower rest t2 (c + pt.prob) pt.attacks hrest
          (by linarith) ?_
        intro q hq
        exact le_of_lt ((List.pairwise_cons.mp hpair).1 q hq)
      · rw [if_neg h1]
        exact ih t1 t2 (c + pt.prob) h12 (by linarith) (List.pairwise_cons.mp hpair).2

theorem markerAmended_mono (t1 t2 : ℚ) (pmf : List TTKPoint)
    (h12 : t1 ≤ t2) (hsum : t2 ≤ (pmf.map TTKPoint.prob).sum)
    (hpair : List.Pairwise (fun a b : TTKPoint => a.attacks < b.attacks) pmf)
    (hpr : ∀ pt ∈ pmf, 0 ≤ pt.prob) :
    markerAmended t1 pmf ≤ markerAmended t2 pmf := by
  match pmf with
  | [] => exact le_refl 1
  | [p] =>
    rw [markerAmended_singleton, markerAmended_singleton, firstCrossingMarker,
      firstCrossingMarker]
    refine firstCrossAux_mono [p] t1 t2 0 h12 ?_ hpair
    rw [zero_add]
    exact hsum
  | p :: q :: rest =>
    rw [List.map_cons, List.sum_cons, List.map_cons, List.sum_cons] at hsum
    rw [markerAmended_cons2, markerAmended_cons2]
    by_cases e2 : p.attacks = 1 ∧ t2 ≤ p.prob
    · have e1 : p.attacks = 1 ∧ t1 ≤ p.prob := ⟨e2.1, le_trans h12 e2.2⟩
      rw [if_pos e1, if_pos e2]
    · by_cases e1 : p.attacks = 1 ∧ t1 ≤ p.prob
      · have ht2p : ¬ t2 ≤ p.prob := by
          intro h
          exact e2 ⟨e1.1, h⟩
        rw [if_pos e1, if_neg e2, firstCrossingMarker, firstCrossAux,
          if_neg (by rw [zero_add]; exact ht2p)]
        refine firstCrossAux_lower (q :: rest) t2 (0 + p.prob) q.attacks
          (by simp) ?_ ?_
        · rw [List.map_cons, List.sum_cons]
          linarith
        · intro x hx
          rcases List.mem_cons.mp hx with h | h
          · rw [h]
          · exact le_of_lt ((List.pairwise_cons.mp (List.pairwise_cons.mp hpair).2).1 x h)
      · rw [if_neg e1, if_neg e2, firstCrossingMarker, firstCrossingMarker]
        refine firstCrossAux_mono (p :: q :: rest) t1 t2 0 h12 ?_ hpair
        rw [zero_add, List.map_cons, List.sum_cons, List.map_cons, List.sum_cons]
        linarith


theorem countsToPmf_sum_one (counts : ℕ → ℕ) (h : 0 < totalCount counts) :
    ((countsToPmf counts).map TTKPoint.prob).sum = 1 := by
  unfold countsToPmf
  rw [sum_probs_aux, ← totalCount_cast]
  exact div_self (by positivity)

theorem percentiles_median_marker (pmf : List TTKPoint) :
    (percentiles pmf).median = marker (1 / 2) pmf := by
  simpa [percentiles, marker] using percGo_median pmf ⟨0, 1, 1, 1, 1, 1⟩

theorem percentiles_p25_marker (pmf : List TTKPoint) :
    (percentiles pmf).p25 = marker (1 / 4) pmf := by
  simpa [percentiles, marker] using percGo_p25 pmf ⟨0, 1, 1, 1, 1, 1⟩

theorem percentiles_p75_marker (pmf : List TTKPoint) :
    (percentiles pmf).p75 = marker (3 / 4) pmf := by
  simpa [percentiles, marker] using percGo_p75 pmf ⟨0, 1, 1, 1, 1, 1⟩

theorem percentiles_p90_marker (pmf : List TTKPoint) :
    (percentiles pmf).p90 = marker (9 / 10) pmf := by
  simpa [percentiles, marker] using percGo_p90 pmf ⟨0, 1, 1, 1, 1, 1⟩

theorem percentiles_p95_marker (pmf : List TTKPoint) :
    (percentiles pmf).p95 = marker (19 / 20) pmf := by
  simpa [percentiles, marker] using percGo_p95 pmf ⟨0, 1, 1, 1, 1, 1⟩

/-- C5 amended: each marker of the empirical PMF equals the first attack count
at which the cumulative mass reaches its threshold, except that a crossing at
a leading entry with attack count 1 is overwritten by the next entry's attack
count when one exists (the sentinel 1 cannot distinguish "unset" from "set to
1"); a marker whose threshold is never reached stays 1. -/
theorem percentile_markers_characterized (counts : ℕ → ℕ) :
    (percentiles (countsToPmf counts)).median
        = markerAmended (1 / 2) (countsToPmf counts) ∧
    (percentiles (countsToPmf counts)).p25
        = markerAmended (1 / 4) (countsToPmf counts) ∧
    (percentiles (countsToPmf counts)).p75
        = markerAmended (3 / 4) (countsToPmf counts) ∧
    (percentiles (countsToPmf counts)).p90
        = markerAmended (9 / 10) (countsToPmf counts) ∧
    (percentiles (countsToPmf counts)).p95
        = markerAmended (19 / 20) (countsToPmf counts) := by
  have hpair := countsToPmf_pairwise counts
  have hge : ∀ pt ∈ countsToPmf counts, 1 ≤ pt.attacks :=
    fun pt hpt => (countsToPmf_mem counts pt hpt).1
  have hpr : ∀ pt ∈ countsToPmf counts, 0 ≤ pt.prob :=
    countsToPmf_prob_nonneg counts
  exact ⟨by rw [percentiles_median_marker,
          marker_eq_markerAmended (1 / 2) _ hpair hge hpr],
      by rw [percentiles_p25_marker,
          marker_eq_markerAmended (1 / 4) _ hpair hge hpr],
      by rw [percentiles_p75_marker,
          marker_eq_markerAmended (3 / 4) _ hpair hge hpr],
      by rw [percentiles_p90_marker,
          marker_eq_markerAmended (9 / 10) _ hpair hge hpr],
      by rw [percentiles_p95_marker,
          marker_eq_markerAmended (19 / 20) _ hpair hge hpr]⟩

/-- A tally with no retained trial (every count in 1..200 zero) yields an
empty empirical PMF, so the percentile loop never runs and all markers keep
their initial value 1. -/
theorem countsToPmf_nil_of_totalCount_zero (counts : ℕ → ℕ)
    (h : totalCount counts = 0) : countsToPmf counts = [] := by
  have key : ∀ l : List ℕ, l.sum = 0 → ∀ x ∈ l, x = 0 := by
    intro l
    induction l with
    | nil => intro _ x hx; simp at hx
    | cons a rest ih =>
      intro hs x hx
      rw [List.sum_cons] at hs
      rcases List.mem_cons.mp hx with hxa | hxr
      · omega
      · exact ih (by omega) x hxr
  rw [countsToPmf, List.filterMap_eq_nil_iff]
  intro i hi
  have hci : ¬ 0 < counts i := by
    intro hc
    have h2 := key _ h (if 0 < counts i then counts i else 0)
      (List.mem_map_of_mem _ hi)
    rw [if_pos hc] at h2
    omega
  rw [pmfEntry, if_neg hci]

/-- C6: for every tally the five markers of the empirical PMF are
monotonically non-decreasing; when every trial was discarded the PMF is empty
and all five markers equal their initial value 1. -/
theorem percentiles_monotone (counts : ℕ → ℕ) :
    (percentiles (countsToPmf counts)).p25 ≤ (percentiles (countsToPmf counts)).median ∧
    (percentiles (countsToPmf counts)).median ≤ (percentiles (countsToPmf counts)).p75 ∧
    (percentiles (countsToPmf counts)).p75 ≤ (percentiles (countsToPmf counts)).p90 ∧
    (percentiles (countsToPmf counts)).p90 ≤ (percentiles (countsToPmf counts)).p95 := by
  by_cases h : 0 < totalCount counts
  · have hpair := countsToPmf_pairwise counts
    have hge : ∀ pt ∈ countsToPmf counts, 1 ≤ pt.attacks :=
      fun pt hpt => (countsToPmf_mem counts pt hpt).1
    have hpr : ∀ pt ∈ countsToPmf counts, 0 ≤ pt.prob :=
      countsToPmf_prob_nonneg counts
    have hsum := countsToPmf_sum_one counts h
    have hm : ∀ t1 t2 : ℚ, t1 ≤ t2 → t2 ≤ 1 →
        marker t1 (countsToPmf counts) ≤ marker t2 (countsToPmf counts) := by
      intro t1 t2 h12 ht2
      rw [marker_eq_markerAmended t1 _ hpair hge hpr,
        marker_eq_markerAmended t2 _ hpair hge hpr]
      exact markerAmended_mono t1 t2 _ h12 (by rw [hsum]; exact ht2) hpair hpr
    rw [percentiles_median_marker, percentiles_p25_marker, percentiles_p75_marker,
      percentiles_p90_marker, percentiles_p95_marker]
    exact ⟨hm (1 / 4) (1 / 2) (by norm_num) (by norm_num),
      hm (1 / 2) (3 / 4) (by norm_num) (by norm_num),
      hm (3 / 4) (9 / 10) (by norm_num) (by norm_num),
      hm (9 / 10) (19 / 20) (by norm_num) (by norm_num)⟩
  · rw [countsToPmf_nil_of_totalCount_zero counts (by omega)]
    exact ⟨le_refl 1, le_refl 1, le_refl 1, le_refl 1⟩


set_option maxRecDepth 4000 in
/-- C5 counterexample: the tally with 3 one-attack trials and 1 two-attack
trial yields the empirical PMF [(1, 3/4), (2, 1/4)]; the first attack count
whose cumulative mass reaches the 0.5 threshold is 1, yet the engine's median
is 2, because the marker set to 1 at the first entry is overwritten at the
second. -/
theorem percentile_overwrite_counterexample :
    countsToPmf (fun i => if i = 1 then 3 else if i = 2 then 1 else 0)
      = [⟨1, 3 / 4⟩, ⟨2, 1 / 4⟩] ∧
    (percentiles [⟨1, 3 / 4⟩, ⟨2, 1 / 4⟩]).median = 2 ∧
    firstCrossingMarker (1 / 2) [⟨1, 3 / 4⟩, ⟨2, 1 / 4⟩] = 1 := by
  refine ⟨?_, ?_, ?_⟩
  · have hT : totalCount (fun i => if i = 1 then 3 else if i = 2 then 1 else 0) = 4 := by
      decide
    have hsplit : List.range' 1 200 = List.range' 1 2 ++ List.range' 3 198 := by
      simpa using (List.range'_append_1 1 2 198).symm
    have hnil : List.filterMap
        (pmfEntry (fun i => if i = 1 then 3 else if i = 2 then 1 else 0))
        (List.range' 3 198) = [] := by
      rw [List.filterMap_eq_nil_iff]
      intro i hi
      rw [List.mem_range'_1] at hi
      rw [pmfEntry, if_neg]
      simp only [show i ≠ 1 by omega, show i ≠ 2 by omega, if_false]
      omega
    unfold countsToPmf
    rw [hsplit, List.filterMap_append, hnil, List.append_nil]
    have h12 : List.range' 1 2 = [1, 2] := rfl
    rw [h12, List.filterMap_cons, List.filterMap_cons, List.filterMap_nil]
    norm_num [pmfEntry, hT]
  · norm_num [percentiles, percGo, percStep]
  · norm_num [firstCrossingMarker, firstCrossAux]

end DndCombat
